import Mathlib

/-!
Shallow embedding of `rectcut.py` (hitbox/rectcut): the rectangle-cutting
core — `pygame.Rect` geometry, the `Cut` orientation enum, the module-level
`cutrect`/`cutrectline` helpers, the `RectAttr` edge accessor, and the
`Rects` partition class with its `cutrect`, `update_preview` and `switchdir`
methods.  Positions are modelled as pairs of integers (the code converts
incoming positions with `map(int, pos)` before using them, so integer
positions pass through unchanged).
-/

/-- Model of `pygame.Rect`: axis-aligned rectangle stored as left, top, width, height
(all integers; pygame stores width/height as given, negative values included). -/
structure Rect where
  left : ℤ
  top : ℤ
  width : ℤ
  height : ℤ
deriving DecidableEq, Repr

/-- Derived edge `pygame.Rect.right = left + width`. -/
def Rect.right (r : Rect) : ℤ := r.left + r.width

/-- Derived edge `pygame.Rect.bottom = top + height`. -/
def Rect.bottom (r : Rect) : ℤ := r.top + r.height

/-- Model of `pygame.Rect.collidepoint((x, y))`: true iff `left <= x < left + width`
and `top <= y < top + height` (a point on the right/bottom edge is outside). -/
def Rect.collidepoint (r : Rect) (x y : ℤ) : Bool :=
  decide (r.left ≤ x) && decide (x < r.left + r.width) &&
  decide (r.top ≤ y) && decide (y < r.top + r.height)

/-- Python truthiness of a `pygame.Rect` (`if cut:`): nonzero width and height. -/
def Rect.toBool (r : Rect) : Bool :=
  decide (r.width ≠ 0) && decide (r.height ≠ 0)

/-- The enum `class Cut(enum.Enum): VERTICAL = 0; HORIZONTAL = 1`. -/
inductive Cut where
  | VERTICAL
  | HORIZONTAL
deriving DecidableEq, Repr

/-- Step of `itertools.cycle(Cut)`: the member following the current one in the
two-element cycle VERTICAL, HORIZONTAL, VERTICAL, … -/
def Cut.next : Cut → Cut
  | .VERTICAL => .HORIZONTAL
  | .HORIZONTAL => .VERTICAL

/-- Module-level `cutrect(rect, slicedir, pos)`: cut `rect` returning two. -/
def cutrect (rect : Rect) (slicedir : Cut) (pos : ℤ × ℤ) : Rect × Rect :=
  let x := pos.1
  let y := pos.2
  match slicedir with
  | .VERTICAL =>
      (⟨rect.left, rect.top, x - rect.left, rect.height⟩,
       ⟨x, rect.top, rect.right - x, rect.height⟩)
  | .HORIZONTAL =>
      (⟨rect.left, rect.top, rect.width, y - rect.top⟩,
       ⟨rect.left, y, rect.width, rect.bottom - y⟩)

/-- Module-level `cutrectline(rect, slicedir, pos)`: preview line. -/
def cutrectline (rect : Rect) (slicedir : Cut) (pos : ℤ × ℤ) :
    (ℤ × ℤ) × (ℤ × ℤ) :=
  let x := pos.1
  let y := pos.2
  match slicedir with
  | .VERTICAL => ((x, rect.top), (x, rect.bottom - 1))
  | .HORIZONTAL => ((rect.left, y), (rect.right - 1, y))

/-- The `attribute` name held by a `RectAttr`: the code only ever selects
`'left'` or `'right'`. -/
inductive EdgeName where
  | left
  | right
deriving DecidableEq, Repr

/-- The `class RectAttr`: a named accessor onto one edge of one rect. -/
structure RectAttr where
  rect : Rect
  attr : EdgeName
deriving DecidableEq, Repr

/-- Model of `getattr(rect, attribute)` for the two edge names the code uses:
`rect.left` is the stored left, `rect.right` is `left + width`. -/
def Rect.getattrEdge (r : Rect) : EdgeName → ℤ
  | .left => r.left
  | .right => r.right

/-- Model of `RectAttr.collideattr(value)`: `getattr(self.rect, self.attribute) == value`. -/
def RectAttr.collideattr (ra : RectAttr) (value : ℤ) : Bool :=
  decide (ra.rect.getattrEdge ra.attr = value)

/-- The `RectAttr.value` getter: width for `'right'`, stored left for `'left'`. -/
def RectAttr.value (ra : RectAttr) : ℤ :=
  match ra.attr with
  | .right => ra.rect.width
  | .left => ra.rect.left

/-- The `RectAttr.value` setter.  For `'right'`: `self.rect.width = value`.
For `'left'`: `diff = self.rect.left - value; self.rect.left = value;
self.rect.width += diff` (assigning `rect.left` in pygame moves the rect,
keeping width, so the net width is the old width plus `diff`). -/
def RectAttr.setValue (ra : RectAttr) (value : ℤ) : RectAttr :=
  match ra.attr with
  | .right => { ra with rect := { ra.rect with width := value } }
  | .left =>
      let diff := ra.rect.left - value
      { ra with rect := { ra.rect with left := value,
                                       width := ra.rect.width + diff } }

/-- The `class RectLink`: two `RectAttr`s moved together along one axis. -/
structure RectLink where
  rectattr1 : RectAttr
  rectattr2 : RectAttr
  concerning : ℤ × ℤ

/-- Model of `RectLink.collideattr(value)`: either member collides. -/
def RectLink.collideattr (rl : RectLink) (value : ℤ) : Bool :=
  rl.rectattr1.collideattr value || rl.rectattr2.collideattr value

/-- The `class Rects`: the partition state — rect list, optional preview segment,
current slice orientation (the `itertools.cycle` iterator state is determined
by the current orientation, the cycle having period two). -/
structure Rects where
  rects : List Rect
  preview : Option ((ℤ × ℤ) × (ℤ × ℤ))
  slicedir : Cut

/-- Model of `Rects.__init__(self, *rects)`: stores the rects, no preview, and the
first member of `itertools.cycle(Cut)`, which is VERTICAL. -/
def Rects.init (rects : List Rect) : Rects :=
  { rects := rects, preview := none, slicedir := Cut.VERTICAL }

/-- The module-level `cutrect` under an unambiguous name, for use inside the
`Rects` namespace where the plain name would denote `Rects.cutrect` itself. -/
def moduleCutrect : Rect → Cut → ℤ × ℤ → Rect × Rect := cutrect

/-- The loop test in `Rects.cutrect`/`Rects.update_preview`: the rect
collides with the point and the point is on none of the four reserved
boundary lines (`x in (rect.left, rect.right-1)`,
`y in (rect.top, rect.bottom-1)`). -/
def cutHit (r : Rect) (x y : ℤ) : Bool :=
  r.collidepoint x y &&
  !(decide (x = r.left) || decide (x = r.right - 1)) &&
  !(decide (y = r.top) || decide (y = r.bottom - 1))

/-- Model of `Rects.cutrect(pos)`: scan for the first rect whose interior contains the
point (boundary hits fall through to later rects); if one is found (`if cut:`
is pygame-Rect truthiness), remove its first occurrence from the list and
append the two halves from the module-level `cutrect`. -/
def Rects.cutrect (s : Rects) (pos : ℤ × ℤ) : Rects :=
  let x := pos.1
  let y := pos.2
  match s.rects.find? (fun r => cutHit r x y) with
  | none => s
  | some cut =>
      if cut.toBool then
        let ab := moduleCutrect cut s.slicedir pos
        { s with rects := (s.rects.erase cut) ++ [ab.1, ab.2] }
      else s

/-- Model of `Rects.update_preview(pos)`: same scan; on the first interior match set
the preview to `cutrectline` of that rect (and stop); if the loop finishes
with no match (`for … else`), clear the preview. -/
def Rects.update_preview (s : Rects) (pos : ℤ × ℤ) : Rects :=
  let x := pos.1
  let y := pos.2
  let found := s.rects.find? (fun r => cutHit r x y)
  { s with preview := found.map (fun r => cutrectline r s.slicedir pos) }

/-- Model of `Rects.switchdir()`: `self.slicedir = next(self.slicedirs)`. -/
def Rects.switchdir (s : Rects) : Rects :=
  { s with slicedir := s.slicedir.next }

/-- States of the partition reachable from a single root rectangle by any
finite sequence of `Rects.cutrect` and `Rects.switchdir` calls. -/
inductive Reachable (root : Rect) : Rects → Prop where
  | init : Reachable root (Rects.init [root])
  | cut {s : Rects} (pos : ℤ × ℤ) :
      Reachable root s → Reachable root (s.cutrect pos)
  | switch {s : Rects} :
      Reachable root s → Reachable root s.switchdir

/-- Area of a rectangle, `width * height`. -/
def Rect.area (r : Rect) : ℤ := r.width * r.height

/-- Membership characterization of `collidepoint`. -/
theorem collidepoint_eq_true_iff (r : Rect) (x y : ℤ) :
    r.collidepoint x y = true ↔
      r.left ≤ x ∧ x < r.left + r.width ∧ r.top ≤ y ∧ y < r.top + r.height := by
  simp [Rect.collidepoint, and_assoc]

/-- The loop test holds iff the rect collides and the point avoids the four
reserved boundary lines. -/
theorem cutHit_eq_true_iff (r : Rect) (x y : ℤ) :
    cutHit r x y = true ↔
      r.collidepoint x y = true ∧
      ¬(x = r.left ∨ x = r.right - 1) ∧ ¬(y = r.top ∨ y = r.bottom - 1) := by
  simp [cutHit, and_assoc, not_or]

/-- The point-interior containment notion used by the cut and preview scans:
the rect collides with the point, which avoids the reserved boundary lines. -/
def interiorContains (r : Rect) (x y : ℤ) : Prop :=
  r.collidepoint x y = true ∧
  x ≠ r.left ∧ x ≠ r.right - 1 ∧ y ≠ r.top ∧ y ≠ r.bottom - 1

instance (r : Rect) (x y : ℤ) : Decidable (interiorContains r x y) := by
  unfold interiorContains
  exact inferInstance

theorem cutHit_iff_interiorContains (r : Rect) (x y : ℤ) :
    cutHit r x y = true ↔ interiorContains r x y := by
  rw [cutHit_eq_true_iff, interiorContains]
  tauto

/-- Unfolding `Rects.cutrect` when no rect passes the scan. -/
theorem Rects.cutrect_of_find_none (s : Rects) (pos : ℤ × ℤ)
    (h : s.rects.find? (fun r => cutHit r pos.1 pos.2) = none) :
    s.cutrect pos = s := by
  simp [Rects.cutrect, h]

/-- Unfolding `Rects.cutrect` when the scan finds a truthy rect. -/
theorem Rects.cutrect_of_find_some (s : Rects) (pos : ℤ × ℤ) (cut : Rect)
    (h : s.rects.find? (fun r => cutHit r pos.1 pos.2) = some cut)
    (ht : cut.toBool = true) :
    s.cutrect pos =
      { s with rects := (s.rects.erase cut) ++
          [(moduleCutrect cut s.slicedir pos).1,
           (moduleCutrect cut s.slicedir pos).2] } := by
  simp [Rects.cutrect, h, ht]

/-- Unfolding `Rects.cutrect` when the scan finds a falsy (degenerate) rect. -/
theorem Rects.cutrect_of_find_some_falsy (s : Rects) (pos : ℤ × ℤ) (cut : Rect)
    (h : s.rects.find? (fun r => cutHit r pos.1 pos.2) = some cut)
    (ht : cut.toBool = false) :
    s.cutrect pos = s := by
  simp [Rects.cutrect, h, ht]

/-- C3.  Cut split geometry: a VERTICAL cut of `r` at `(x, y)` yields exactly
`(r.left, r.top, x - r.left, r.height)` and `(x, r.top, r.right - x, r.height)`;
a HORIZONTAL cut yields exactly `(r.left, r.top, r.width, y - r.top)` and
`(r.left, y, r.width, r.bottom - y)`: the left/top part spans up to but
excluding the cut coordinate, the right/bottom part starts at it, and the
other dimension is carried over in full. -/
theorem cutrect_split_geometry (r : Rect) (x y : ℤ) :
    cutrect r Cut.VERTICAL (x, y) =
      (⟨r.left, r.top, x - r.left, r.height⟩,
       ⟨x, r.top, r.right - x, r.height⟩) ∧
    cutrect r Cut.HORIZONTAL (x, y) =
      (⟨r.left, r.top, r.width, y - r.top⟩,
       ⟨r.left, y, r.width, r.bottom - y⟩) :=
  ⟨rfl, rfl⟩

/-- C6 counterexample.  For the rect `(5, 0, 3, 3)` whose width is `3`,
`collideattr` on the `right` attribute applied to `3` returns `false`: the
code compares against `getattr(rect, 'right') = left + width = 8`, not
against the width as the claim states. -/
theorem collideattr_right_counterexample :
    (RectAttr.mk ⟨5, 0, 3, 3⟩ EdgeName.right).collideattr 3 = false ∧
    (Rect.mk 5 0 3 3).width = 3 ∧
    (RectAttr.mk ⟨5, 0, 3, 3⟩ EdgeName.right).collideattr 8 = true := by
  exact ⟨by decide, by decide, by decide⟩

/-- C6 amended.  `collides(v)` is an equality test against the named edge's
attribute as read by `getattr`: for `left` it is true exactly when `v` equals
the rectangle's absolute left coordinate, and for `right` exactly when `v`
equals the rectangle's absolute right coordinate (`left + width`), not its
width. -/
theorem collideattr_edge_semantics (r : Rect) (v : ℤ) :
    ((RectAttr.mk r EdgeName.left).collideattr v = true ↔ v = r.left) ∧
    ((RectAttr.mk r EdgeName.right).collideattr v = true ↔ v = r.left + r.width) := by
  constructor
  · simp [RectAttr.collideattr, Rect.getattrEdge, eq_comm]
  · simp [RectAttr.collideattr, Rect.getattrEdge, Rect.right, eq_comm]

/-- C7.  `RectAttr.value` accessor semantics: reading `right` returns the
rect's width and reading `left` returns its absolute left; writing `right`
sets width to `v` with left, top and height unchanged; writing `left` sets
left to `v` while the absolute right coordinate, top and height stay
unchanged (the width absorbs the difference). -/
theorem rectattr_value_semantics (r : Rect) (v : ℤ) :
    (RectAttr.mk r EdgeName.right).value = r.width ∧
    (RectAttr.mk r EdgeName.left).value = r.left ∧
    ((RectAttr.mk r EdgeName.right).setValue v).rect =
      ⟨r.left, r.top, v, r.height⟩ ∧
    ((RectAttr.mk r EdgeName.left).setValue v).rect.left = v ∧
    ((RectAttr.mk r EdgeName.left).setValue v).rect.right = r.right ∧
    ((RectAttr.mk r EdgeName.left).setValue v).rect.top = r.top ∧
    ((RectAttr.mk r EdgeName.left).setValue v).rect.height = r.height := by
  refine ⟨rfl, rfl, rfl, rfl, ?_, rfl, rfl⟩
  simp [RectAttr.setValue, Rect.right]
  ring

/-- C8.  Orientation cycling: the initial orientation is VERTICAL; two
`switchdir` calls restore any state's orientation; and after `n` successive
`switchdir` calls from the initial state the orientation is VERTICAL for even
`n` and HORIZONTAL for odd `n` — the alternating sequence VERTICAL,
HORIZONTAL, VERTICAL, … with nothing skipped or repeated out of order. -/
theorem orientation_cycling :
    (∀ rs : List Rect, (Rects.init rs).slicedir = Cut.VERTICAL) ∧
    (∀ s : Rects, s.switchdir.switchdir.slicedir = s.slicedir) ∧
    (∀ (rs : List Rect) (n : ℕ),
      (Rects.switchdir^[n] (Rects.init rs)).slicedir =
        if n % 2 = 0 then Cut.VERTICAL else Cut.HORIZONTAL) := by
  refine ⟨fun _ => rfl, fun s => ?_, fun rs n => ?_⟩
  · cases h : s.slicedir <;> simp [Rects.switchdir, Cut.next, h]
  · induction n with
    | zero => rfl
    | succ n ih =>
        rw [Function.iterate_succ_apply']
        rcases Nat.mod_two_eq_zero_or_one n with h | h
        · have hmod : (n + 1) % 2 = 1 := by omega
          simp [Rects.switchdir, ih, h, hmod, Cut.next]
        · have hmod : (n + 1) % 2 = 0 := by omega
          simp [Rects.switchdir, ih, h, hmod, Cut.next]

/-- C10.  Frame property of cutting: `Rects.cutrect` never changes the stored
preview segment or the current orientation, whatever the state and point. -/
theorem cutrect_frame (s : Rects) (pos : ℤ × ℤ) :
    (s.cutrect pos).preview = s.preview ∧
    (s.cutrect pos).slicedir = s.slicedir := by
  rcases h : s.rects.find? (fun r => cutHit r pos.1 pos.2) with _ | cut
  · rw [Rects.cutrect_of_find_none s pos h]
    exact ⟨rfl, rfl⟩
  · cases ht : cut.toBool
    · rw [Rects.cutrect_of_find_some_falsy s pos cut h ht]
      exact ⟨rfl, rfl⟩
    · rw [Rects.cutrect_of_find_some s pos cut h ht]
      exact ⟨rfl, rfl⟩

/-- Running `find?` on a list split as `l₁ ++ r :: l₂` where everything in `l₁` fails
the predicate and `r` passes it returns `r`. -/
theorem find?_prefix_first {α : Type} (p : α → Bool) (l₁ l₂ : List α) (r : α)
    (h₁ : ∀ a ∈ l₁, p a = false) (h₂ : p r = true) :
    List.find? p (l₁ ++ r :: l₂) = some r := by
  induction l₁ with
  | nil => simp [List.find?_cons_of_pos, h₂]
  | cons a as ih =>
      have ha : p a = false := h₁ a (by simp)
      rw [List.cons_append, List.find?_cons_of_neg _ (by simp [ha])]
      exact ih (fun b hb => h₁ b (by simp [hb]))

/-- C4.  Boundary and no-match no-op: if every rectangle of the list that
contains the point has it on its left, right-minus-one, top or
bottom-minus-one line (in particular if the point is outside every
rectangle), then `Rects.cutrect` leaves the rectangle list unchanged. -/
theorem cutrect_boundary_noop (s : Rects) (x y : ℤ)
    (h : ∀ r ∈ s.rects, r.collidepoint x y = true →
        (x = r.left ∨ x = r.right - 1 ∨ y = r.top ∨ y = r.bottom - 1)) :
    (s.cutrect (x, y)).rects = s.rects := by
  have hnone : s.rects.find? (fun r => cutHit r x y) = none := by
    rw [List.find?_eq_none]
    intro r hr hhit
    rcases (cutHit_eq_true_iff r x y).mp hhit with ⟨hc, hx, hy⟩
    rcases h r hr hc with h' | h' | h' | h'
    · exact hx (Or.inl h')
    · exact hx (Or.inr h')
    · exact hy (Or.inl h')
    · exact hy (Or.inr h')
  rw [Rects.cutrect_of_find_none s (x, y) hnone]

/-- C4 witness: cutting the fresh partition over `(0, 0, 100, 100)` at the
boundary point `(0, 50)` changes nothing. -/
theorem cutrect_boundary_noop_witness :
    ((Rects.init [⟨0, 0, 100, 100⟩]).cutrect (0, 50)).rects =
      (Rects.init [⟨0, 0, 100, 100⟩]).rects :=
  cutrect_boundary_noop (Rects.init [⟨0, 0, 100, 100⟩]) 0 50 (by decide)

/-- C5.  Preview contract: if no rectangle's interior contains the point
(boundary hit or outside all rectangles), `update_preview` clears the
preview; if the interior of `r`, the first such rectangle in list order,
contains it, the preview becomes the full-length segment of the next cut in
`r` — `(x, r.top)–(x, r.bottom - 1)` for VERTICAL, `(r.left, y)–(r.right - 1, y)`
for HORIZONTAL. -/
theorem update_preview_spec (s : Rects) (x y : ℤ) :
    ((∀ r ∈ s.rects, ¬ interiorContains r x y) →
        (s.update_preview (x, y)).preview = none) ∧
    (∀ (l₁ : List Rect) (r : Rect) (l₂ : List Rect),
        s.rects = l₁ ++ r :: l₂ →
        (∀ r' ∈ l₁, ¬ interiorContains r' x y) →
        interiorContains r x y →
        (s.update_preview (x, y)).preview =
          some (match s.slicedir with
                | Cut.VERTICAL => ((x, r.top), (x, r.bottom - 1))
                | Cut.HORIZONTAL => ((r.left, y), (r.right - 1, y)))) := by
  constructor
  · intro h
    have hnone : s.rects.find? (fun r => cutHit r x y) = none := by
      rw [List.find?_eq_none]
      intro r hr hhit
      exact h r hr ((cutHit_iff_interiorContains r x y).mp hhit)
    simp [Rects.update_preview, hnone]
  · intro l₁ r l₂ hsplit h₁ h₂
    have hfind : s.rects.find? (fun r => cutHit r x y) = some r := by
      rw [hsplit]
      refine find?_prefix_first _ l₁ l₂ r (fun a ha => ?_) ?_
      · rw [Bool.eq_false_iff]
        intro hhit
        exact h₁ a ha ((cutHit_iff_interiorContains a x y).mp hhit)
      · exact (cutHit_iff_interiorContains r x y).mpr h₂
    cases hdir : s.slicedir <;>
      simp [Rects.update_preview, hfind, cutrectline, hdir]

/-- C5 witness: on the fresh partition over `(0, 0, 100, 100)`, a preview
query at the boundary point `(0, 50)` clears the preview, and one at the
interior point `(50, 50)` stores the vertical segment `(50, 0)–(50, 99)`. -/
theorem update_preview_spec_witness :
    ((Rects.init [⟨0, 0, 100, 100⟩]).update_preview (0, 50)).preview = none ∧
    ((Rects.init [⟨0, 0, 100, 100⟩]).update_preview (50, 50)).preview =
      some ((50, 0), (50, 99)) := by
  constructor
  · exact (update_preview_spec (Rects.init [⟨0, 0, 100, 100⟩]) 0 50).1 (by decide)
  · have h := (update_preview_spec (Rects.init [⟨0, 0, 100, 100⟩]) 50 50).2
      [] ⟨0, 0, 100, 100⟩ [] rfl (by simp) (by decide)
    simpa [Rects.init, Rect.bottom] using h

/-- The two halves of a cut always have the parent's total area. -/
theorem area_cut_pieces (cut : Rect) (dir : Cut) (pos : ℤ × ℤ) :
    (moduleCutrect cut dir pos).1.area + (moduleCutrect cut dir pos).2.area =
      cut.area := by
  cases dir <;>
    simp [moduleCutrect, cutrect, Rect.area, Rect.right, Rect.bottom] <;> ring

/-- One `Rects.cutrect` call preserves the total area of the rect list. -/
theorem cutrect_sum_area (s : Rects) (pos : ℤ × ℤ) :
    (((s.cutrect pos).rects.map Rect.area).sum : ℤ) =
      ((s.rects.map Rect.area).sum : ℤ) := by
  rcases h : s.rects.find? (fun r => cutHit r pos.1 pos.2) with _ | cut
  · rw [Rects.cutrect_of_find_none s pos h]
  · cases ht : cut.toBool
    · rw [Rects.cutrect_of_find_some_falsy s pos cut h ht]
    · rw [Rects.cutrect_of_find_some s pos cut h ht]
      have hmem : cut ∈ s.rects := List.mem_of_find?_eq_some h
      have hperm := List.perm_cons_erase hmem
      have hsum := (hperm.map Rect.area).sum_eq
      simp only [List.map_cons, List.sum_cons] at hsum
      simp only [List.map_append, List.sum_append, List.map_cons,
        List.sum_cons, List.map_nil, List.sum_nil]
      have hpieces := area_cut_pieces cut s.slicedir pos
      omega

/-- C1.  Area conservation: from a single root rectangle with non-negative
width and height, every finite sequence of `Rects.cutrect` and
`Rects.switchdir` calls keeps the sum of the areas (width * height) of the
rectangles in the list equal to the root's area. -/
theorem rects_area_conservation (root : Rect)
    (_hw : 0 ≤ root.width) (_hh : 0 ≤ root.height)
    (s : Rects) (hs : Reachable root s) :
    ((s.rects.map Rect.area).sum : ℤ) = root.area := by
  induction hs with
  | init => simp [Rects.init]
  | cut pos _ ih => rw [cutrect_sum_area]; exact ih
  | switch _ ih => exact ih

/-- C1 witness: after one cut of the root `(0, 0, 100, 100)` at `(50, 50)`
the areas still sum to the root's area. -/
theorem rects_area_conservation_witness :
    ((((Rects.init [⟨0, 0, 100, 100⟩]).cutrect (50, 50)).rects.map
        Rect.area).sum : ℤ) = Rect.area ⟨0, 0, 100, 100⟩ :=
  rects_area_conservation ⟨0, 0, 100, 100⟩ (by decide) (by decide) _
    (Reachable.cut (50, 50) Reachable.init)

/-- Both halves of a cut fired at a point the parent collides with have
non-negative width and height. -/
theorem cut_pieces_nonneg (cut : Rect) (dir : Cut) (pos : ℤ × ℤ)
    (h : cut.collidepoint pos.1 pos.2 = true) :
    (0 ≤ (moduleCutrect cut dir pos).1.width ∧
     0 ≤ (moduleCutrect cut dir pos).1.height) ∧
    (0 ≤ (moduleCutrect cut dir pos).2.width ∧
     0 ≤ (moduleCutrect cut dir pos).2.height) := by
  rw [collidepoint_eq_true_iff] at h
  cases dir <;>
    simp only [moduleCutrect, cutrect, Rect.right, Rect.bottom] <;>
    constructor <;> constructor <;> omega

/-- One `Rects.cutrect` call preserves non-negativity of all dimensions. -/
theorem cutrect_nonneg (s : Rects) (pos : ℤ × ℤ)
    (h : ∀ r ∈ s.rects, 0 ≤ r.width ∧ 0 ≤ r.height) :
    ∀ r ∈ (s.cutrect pos).rects, 0 ≤ r.width ∧ 0 ≤ r.height := by
  rcases hf : s.rects.find? (fun r => cutHit r pos.1 pos.2) with _ | cut
  · rw [Rects.cutrect_of_find_none s pos hf]; exact h
  · cases ht : cut.toBool
    · rw [Rects.cutrect_of_find_some_falsy s pos cut hf ht]; exact h
    · rw [Rects.cutrect_of_find_some s pos cut hf ht]
      have hpred := List.find?_some hf
      have hcol : cut.collidepoint pos.1 pos.2 = true :=
        ((cutHit_eq_true_iff cut pos.1 pos.2).mp hpred).1
      have hpieces := cut_pieces_nonneg cut s.slicedir pos hcol
      intro r hr
      simp only [List.mem_append, List.mem_cons, List.not_mem_nil,
        or_false] at hr
      rcases hr with hr | hr | hr
      · exact h r (List.mem_of_mem_erase hr)
      · exact hr ▸ hpieces.1
      · exact hr ▸ hpieces.2

/-- C9.  Non-negativity: from a root rectangle with non-negative width and
height, every rectangle present after any finite sequence of `Rects.cutrect`
and `Rects.switchdir` calls has non-negative width and height. -/
theorem rects_nonneg_dims (root : Rect)
    (hw : 0 ≤ root.width) (hh : 0 ≤ root.height)
    (s : Rects) (hs : Reachable root s) :
    ∀ r ∈ s.rects, 0 ≤ r.width ∧ 0 ≤ r.height := by
  induction hs with
  | init =>
      intro r hr
      have hroot : r = root := by simpa [Rects.init] using hr
      exact hroot ▸ ⟨hw, hh⟩
  | cut pos _ ih => exact cutrect_nonneg _ pos ih
  | switch _ ih => exact ih

/-- C9 witness: the first child `(0, 0, 50, 100)` of cutting the root
`(0, 0, 100, 100)` at `(50, 50)` has non-negative dimensions. -/
theorem rects_nonneg_dims_witness :
    0 ≤ (Rect.mk 0 0 50 100).width ∧ 0 ≤ (Rect.mk 0 0 50 100).height :=
  rects_nonneg_dims ⟨0, 0, 100, 100⟩ (by decide) (by decide) _
    (Reachable.cut (50, 50) Reachable.init) ⟨0, 0, 50, 100⟩ (by decide)

/-- Two rectangles are disjoint when no integer point collides with both
(their half-open pixel regions do not meet). -/
def disjointRects (r1 r2 : Rect) : Prop :=
  ∀ x y : ℤ, ¬(r1.collidepoint x y = true ∧ r2.collidepoint x y = true)

theorem disjointRects_symm {r1 r2 : Rect} (h : disjointRects r1 r2) :
    disjointRects r2 r1 :=
  fun x y hc => h x y ⟨hc.2, hc.1⟩

/-- The two halves of any cut are disjoint from each other. -/
theorem cut_pieces_disjoint (cut : Rect) (dir : Cut) (pos : ℤ × ℤ) :
    disjointRects (moduleCutrect cut dir pos).1 (moduleCutrect cut dir pos).2 := by
  intro x y
  cases dir <;>
    simp only [moduleCutrect, cutrect, collidepoint_eq_true_iff,
      Rect.right, Rect.bottom] <;>
    omega

/-- Every point of either half of a cut fired at a point the parent collides
with is a point of the parent. -/
theorem cut_pieces_subset (cut : Rect) (dir : Cut) (pos : ℤ × ℤ)
    (h : cut.collidepoint pos.1 pos.2 = true) :
    (∀ x y : ℤ, (moduleCutrect cut dir pos).1.collidepoint x y = true →
        cut.collidepoint x y = true) ∧
    (∀ x y : ℤ, (moduleCutrect cut dir pos).2.collidepoint x y = true →
        cut.collidepoint x y = true) := by
  rw [collidepoint_eq_true_iff] at h
  cases dir <;> constructor <;> intro x y <;>
    simp only [moduleCutrect, cutrect, collidepoint_eq_true_iff,
      Rect.right, Rect.bottom] <;>
    omega

/-- One `Rects.cutrect` call preserves pairwise disjointness of the list. -/
theorem cutrect_pairwise (s : Rects) (pos : ℤ × ℤ)
    (h : s.rects.Pairwise disjointRects) :
    (s.cutrect pos).rects.Pairwise disjointRects := by
  rcases hf : s.rects.find? (fun r => cutHit r pos.1 pos.2) with _ | cut
  · rw [Rects.cutrect_of_find_none s pos hf]; exact h
  · cases ht : cut.toBool
    · rw [Rects.cutrect_of_find_some_falsy s pos cut hf ht]; exact h
    · rw [Rects.cutrect_of_find_some s pos cut hf ht]
      have hmem : cut ∈ s.rects := List.mem_of_find?_eq_some hf
      have hpred := List.find?_some hf
      have hcol : cut.collidepoint pos.1 pos.2 = true :=
        ((cutHit_eq_true_iff cut pos.1 pos.2).mp hpred).1
      have hperm := List.perm_cons_erase hmem
      have hpair2 : List.Pairwise disjointRects (cut :: s.rects.erase cut) :=
        (List.Perm.pairwise_iff (fun hab => disjointRects_symm hab) hperm).mp h
      rw [List.pairwise_cons] at hpair2
      have hsub := cut_pieces_subset cut s.slicedir pos hcol
      rw [List.pairwise_append]
      refine ⟨hpair2.2, ?_, ?_⟩
      · rw [List.pairwise_cons]
        refine ⟨fun b hb => ?_, List.pairwise_singleton _ _⟩
        rw [List.mem_singleton] at hb
        exact hb ▸ cut_pieces_disjoint cut s.slicedir pos
      · intro u hu v hv
        have hdu : disjointRects cut u := hpair2.1 u hu
        simp only [List.mem_cons, List.not_mem_nil, or_false] at hv
        rcases hv with rfl | rfl
        · exact fun x y hc => hdu x y ⟨hsub.1 x y hc.2, hc.1⟩
        · exact fun x y hc => hdu x y ⟨hsub.2 x y hc.2, hc.1⟩

/-- All states reachable from a single root have pairwise disjoint rects. -/
theorem pairwise_reachable (root : Rect) (s : Rects) (hs : Reachable root s) :
    s.rects.Pairwise disjointRects := by
  induction hs with
  | init => simp [Rects.init]
  | cut pos _ ih => exact cutrect_pairwise _ pos ih
  | switch _ ih => exact ih

/-- The open (real-geometric, here rational-valued) interior of a rectangle:
`(left, right) × (top, bottom)`. -/
def openInterior (r : Rect) : Set (ℚ × ℚ) :=
  {p | (r.left : ℚ) < p.1 ∧ p.1 < (r.right : ℚ) ∧
       (r.top : ℚ) < p.2 ∧ p.2 < (r.bottom : ℚ)}

/-- Disjointness of the half-open pixel regions forces the open interiors to
be disjoint as well: a common interior point would put the integer point
`(max of lefts, max of tops)` in both pixel regions. -/
theorem disjointRects_openInterior {r1 r2 : Rect} (h : disjointRects r1 r2)
    (p : ℚ × ℚ) : ¬(p ∈ openInterior r1 ∧ p ∈ openInterior r2) := by
  rintro ⟨⟨h11, h12, h13, h14⟩, ⟨h21, h22, h23, h24⟩⟩
  apply h (max r1.left r2.left) (max r1.top r2.top)
  have hx1 : ((max r1.left r2.left : ℤ) : ℚ) < (r1.right : ℚ) := by
    push_cast
    exact lt_trans (max_lt h11 h21) h12
  have hx2 : ((max r1.left r2.left : ℤ) : ℚ) < (r2.right : ℚ) := by
    push_cast
    exact lt_trans (max_lt h11 h21) h22
  have hy1 : ((max r1.top r2.top : ℤ) : ℚ) < (r1.bottom : ℚ) := by
    push_cast
    exact lt_trans (max_lt h13 h23) h14
  have hy2 : ((max r1.top r2.top : ℤ) : ℚ) < (r2.bottom : ℚ) := by
    push_cast
    exact lt_trans (max_lt h13 h23) h24
  have hx1' := Int.cast_lt.mp hx1
  have hx2' := Int.cast_lt.mp hx2
  have hy1' := Int.cast_lt.mp hy1
  have hy2' := Int.cast_lt.mp hy2
  rw [Rect.right] at hx1' hx2'
  rw [Rect.bottom] at hy1' hy2'
  constructor <;> rw [collidepoint_eq_true_iff]
  · exact ⟨le_max_left _ _, hx1', le_max_left _ _, hy1'⟩
  · exact ⟨le_max_right _ _, hx2', le_max_right _ _, hy2'⟩

/-- C2.  Disjointness: from a single root rectangle, after every finite
sequence of `Rects.cutrect` and `Rects.switchdir` calls, the open interiors
of any two distinct rectangles simultaneously present in the list do not
intersect. -/
theorem rects_interiors_disjoint (root : Rect) (s : Rects)
    (hs : Reachable root s) (i j : Fin s.rects.length) (hij : i ≠ j)
    (p : ℚ × ℚ) :
    ¬(p ∈ openInterior (s.rects.get i) ∧ p ∈ openInterior (s.rects.get j)) := by
  have hpair : s.rects.Pairwise disjointRects := pairwise_reachable root s hs
  rcases lt_or_gt_of_ne hij with hlt | hgt
  · exact disjointRects_openInterior
      (List.pairwise_iff_get.mp hpair i j hlt) p
  · intro hc
    exact disjointRects_openInterior
      (List.pairwise_iff_get.mp hpair j i hgt) p ⟨hc.2, hc.1⟩

/-- C2 witness: the two children of cutting the root `(0, 0, 100, 100)` at
`(50, 50)` have disjoint open interiors at the sample point `(25, 50)`. -/
theorem rects_interiors_disjoint_witness :
    ¬(((25 : ℚ), (50 : ℚ)) ∈ openInterior ⟨0, 0, 50, 100⟩ ∧
      ((25 : ℚ), (50 : ℚ)) ∈ openInterior ⟨50, 0, 50, 100⟩) :=
  rects_interiors_disjoint ⟨0, 0, 100, 100⟩
    ((Rects.init [⟨0, 0, 100, 100⟩]).cutrect (50, 50))
    (Reachable.cut (50, 50) Reachable.init)
    ⟨0, by decide⟩ ⟨1, by decide⟩ (by decide) ((25 : ℚ), (50 : ℚ))
